import Mathlib

/-!
Verification of `blackmamba/script/analyze.py`: the linter-report adapter that
converts pep8 / pyflakes / flake8 diagnostic reports into editor annotations.

The Python source is shallowly embedded below.  Pure string/list manipulation
is translated to executable Lean functions; the external linter invocations,
the host editor API and the configuration store are modelled as explicit
parameters (oracles) and event traces.
-/

namespace BlackmambaAnalyze

/-- Modelled from the spec: the severity style of an annotation
(`blackmamba.ide.annotation.Style`, which is not under `src/`).  The spec's
data model says a record's severity is either warning or error. -/
inductive Style where
  | warning
  | error
deriving DecidableEq

/-- Modelled from the spec: the host-facing value of a `Style`
(`Style.value` in `blackmamba.ide.annotation`), the string handed to
`editor.annotate_line`.  The two severities map to two distinct strings. -/
def Style.value : Style → String
  | Style.warning => "warning"
  | Style.error => "error"

/-- Embeds `_Source`: the enum of originating linters. -/
inductive Source where
  | pep8
  | pyflakes
  | flake8
deriving DecidableEq

/-- Embeds `_AnalyzerAnnotation.__init__` together with the `Annotation` base
class fields: a diagnostic record carries a source line number, a display
text, the originating linter and a severity style. -/
structure AnalyzerAnn where
  line : Nat
  text : String
  source : Source
  style : Style
deriving DecidableEq

/-- Embeds `_AnalyzerAnnotation.__lt__`: the three sequential `if` tests of
the Python method, in order. -/
def ltAnn (a b : AnalyzerAnn) : Bool :=
  if a.source = Source.pep8 ∧ b.source = Source.pyflakes then true
  else if a.source = Source.flake8 ∧ b.source ≠ Source.flake8 then true
  else if a.style = Style.warning ∧ b.style = Style.error then true
  else false

/-- Embeds `int(...)` applied to the digit group of a report line: the
numeric value of a decimal digit sequence. -/
def natOfDigits (ds : List Char) : Nat :=
  ds.foldl (fun n c => 10 * n + (c.toNat - '0'.toNat)) 0

/-- Embeds `_LINE_COL_MESSAGE_REGEX.fullmatch`, the anchored regex
`(\d+):(\d+): (.*)` where `.` does not match a newline.  Greedy `\d+` is the
maximal digit prefix (backtracking to a shorter prefix cannot help, since the
following `:` never matches a digit), and `fullmatch` requires the whole
string to be consumed, so the trailing group may not contain a newline. -/
def matchLineColMsgL (cs : List Char) : Option (List Char × List Char × List Char) :=
  let d1 := cs.takeWhile Char.isDigit
  let r1 := cs.dropWhile Char.isDigit
  if d1.isEmpty then none
  else
    match r1 with
    | ':' :: r2 =>
      let d2 := r2.takeWhile Char.isDigit
      let r3 := r2.dropWhile Char.isDigit
      if d2.isEmpty then none
      else
        match r3 with
        | ':' :: ' ' :: rest => if '\n' ∈ rest then none else some (d1, d2, rest)
        | _ => none
    | _ => none

/-- Embeds `_LINE_MESSAGE_REGEX.fullmatch`, the anchored regex
`(\d+): (.*)` where `.` does not match a newline. -/
def matchLineMsgL (cs : List Char) : Option (List Char × List Char) :=
  let d1 := cs.takeWhile Char.isDigit
  let r1 := cs.dropWhile Char.isDigit
  if d1.isEmpty then none
  else
    match r1 with
    | ':' :: ' ' :: rest => if '\n' ∈ rest then none else some (d1, rest)
    | _ => none

/-- Embeds the loop body of `_get_annotations` for one report line: skip the
line unless it starts with the path, strip `len(path) + 1` characters, try
the line:column:message regex and then the line:message regex, and build a
pyflakes record with the style passed in. -/
def getAnnsLine (path : List Char) (style : Style) (cs : List Char) : Option AnalyzerAnn :=
  if path.isPrefixOf cs then
    let rest := cs.drop (path.length + 1)
    match matchLineColMsgL rest with
    | some (d1, d2, msg) =>
      some ⟨natOfDigits d1, "Col " ++ String.mk d2 ++ ": " ++ String.mk msg,
        Source.pyflakes, style⟩
    | none =>
      match matchLineMsgL rest with
      | some (d1, msg) => some ⟨natOfDigits d1, String.mk msg, Source.pyflakes, style⟩
      | none => none
  else none

/-- String-level wrapper for `getAnnsLine`; Python slicing and `startswith`
act on the code-point sequence `String.data`. -/
def getAnnsLineS (path : String) (style : Style) (line : String) : Option AnalyzerAnn :=
  getAnnsLine path.data style line.data

/-- Embeds `_get_annotations` applied to the already-split report lines
(`stream.getvalue().splitlines()`; the `io.StringIO` stream is external, so
its split line list is the parameter). -/
def getAnnsLines (path : String) (style : Style) (lines : List String) : List AnalyzerAnn :=
  lines.filterMap (getAnnsLineS path style)

/-- Embeds the local `get_style` of `_parse_flake8_output`: warning iff the
message starts with `W`, else error. -/
def flakeStyle (message : String) : Style :=
  if message.startsWith "W" then Style.warning else Style.error

/-- Embeds the loop body of `_parse_flake8_output` for one report line: same
path test, stripping and regex matching as `_get_annotations`, but the
record's source is flake8 and its style is derived from the message group. -/
def parseFlake8Line (path : List Char) (cs : List Char) : Option AnalyzerAnn :=
  if path.isPrefixOf cs then
    let rest := cs.drop (path.length + 1)
    match matchLineColMsgL rest with
    | some (d1, d2, msg) =>
      some ⟨natOfDigits d1, "Col " ++ String.mk d2 ++ ": " ++ String.mk msg,
        Source.flake8, flakeStyle (String.mk msg)⟩
    | none =>
      match matchLineMsgL rest with
      | some (d1, msg) =>
        some ⟨natOfDigits d1, String.mk msg, Source.flake8, flakeStyle (String.mk msg)⟩
      | none => none
  else none

/-- String-level wrapper for `parseFlake8Line`. -/
def parseFlake8LineS (path : String) (line : String) : Option AnalyzerAnn :=
  parseFlake8Line path.data line.data

/-- Embeds `_parse_flake8_output` applied to the split lines of the report
read from the output file (the file system is external, so the report's
split line list is the parameter). -/
def parseFlake8Lines (path : String) (lines : List String) : List AnalyzerAnn :=
  lines.filterMap (parseFlake8LineS path)

/-- Outcome of invoking flake8 for one option set inside the `try` block of
`_flake8_annotations`: either the run and the parse of its output file yield
a list of records, or some step raises an exception with a message. -/
inductive RunResult where
  | success (anns : List AnalyzerAnn)
  | failure (msg : String)
deriving DecidableEq

/-- Embeds the loop of `_flake8_annotations`: one flake8 invocation per
option set; a successful run extends the collected annotations, a raised
exception is caught and logged as `flake8 failed: ...` and the loop goes on.
Returns the collected annotations and the log messages, in order. -/
def flake8Annotations : List RunResult → List AnalyzerAnn × List String
  | [] => ([], [])
  | RunResult.success anns :: rest =>
    let r := flake8Annotations rest
    (anns ++ r.1, r.2)
  | RunResult.failure msg :: rest =>
    let r := flake8Annotations rest
    (r.1, ("flake8 failed: " ++ msg) :: r.2)

/-- Embeds `_Pep8AnnotationReport.error`: if the base-class `error` call does
not return a code the diagnostic is ignored, otherwise a pep8 record is
created at `self.line_offset + line_number` with warning style.  The pep8
checker itself is external; one call is modelled by its arguments together
with the code returned by the base class. -/
def pep8ReportError (lineOffset lineNumber : Nat) (text : String)
    (superCode : Option String) : Option AnalyzerAnn :=
  match superCode with
  | none => none
  | some _ => some ⟨lineOffset + lineNumber, text, Source.pep8, Style.warning⟩

/-- Embeds `_pep8_annotations`: the records accumulated by the report over
the sequence of `error` calls made by the external pep8 checker. -/
def pep8Annotations (calls : List (Nat × Nat × String × Option String)) : List AnalyzerAnn :=
  calls.filterMap fun c => pep8ReportError c.1 c.2.1 c.2.2.1 c.2.2.2

/-- Key ordering used by `sorted(annotations, key=lambda x: x.line)`. -/
def lineLe (a b : AnalyzerAnn) : Prop := a.line ≤ b.line

instance : DecidableRel lineLe := fun a b => Nat.decLe a.line b.line

/-- Ordering used by `sorted(annotations, reverse=True)`: Python's sort
consults only `__lt__`, taking the next element from the left run unless the
right one compares strictly less. -/
def pyLe (a b : AnalyzerAnn) : Prop := ¬ ltAnn b a = true

instance : DecidableRel pyLe := fun _ _ => instDecidableNot

/-- Embeds `sorted(annotations, key=lambda x: x.line)` in `main`: Python's
`sorted` is a stable sort, modelled as stable insertion sort. -/
def pySortedByLine (l : List AnalyzerAnn) : List AnalyzerAnn :=
  List.insertionSort lineLe l

/-- Embeds `sorted(annotations, reverse=True)` in `_annotate`: CPython
implements `reverse=True` by reversing the list before and after a stable
ascending sort, modelled with stable insertion sort. -/
def pySortedDesc (l : List AnalyzerAnn) : List AnalyzerAnn :=
  (List.insertionSort pyLe l.reverse).reverse

/-- One `editor.annotate_line` call: the host editor API is external, so an
emitted annotation is recorded as this event payload. -/
structure Emission where
  line : Nat
  text : String
  style : String
  scroll : Bool
deriving DecidableEq

/-- Embeds `_annotate`: sort the line's records by priority in reverse
order, take the first record's style value, join the texts with `,\n` and
emit one annotation for the line.  An empty group would make
`by_priority[0]` raise, which the `Option` result records as `none`. -/
def annotateE (l : Nat) (anns : List AnalyzerAnn) (scroll : Bool) : Option Emission :=
  match pySortedDesc anns with
  | [] => none
  | a :: rest =>
    some ⟨l, String.intercalate ",\n" ((a :: rest).map AnalyzerAnn.text), a.style.value, scroll⟩

/-- Embeds `itertools.groupby(by_line, lambda x: x.line)`: the maximal runs
of consecutive records with equal line number, each with its key. -/
def runs : List AnalyzerAnn → List (Nat × List AnalyzerAnn)
  | [] => []
  | a :: rest =>
    match runs rest with
    | [] => [(a.line, [a])]
    | (k, g) :: t => if a.line = k then (k, a :: g) :: t else (a.line, [a]) :: (k, g) :: t

/-- Embeds the emission loop of `main`: `_annotate` once per group, with
`scroll` true only for the first group; a raising call aborts the run
(`none`). -/
def emitAll : Bool → List (Nat × List AnalyzerAnn) → Option (List Emission)
  | _, [] => some []
  | sc, (k, g) :: rest =>
    match annotateE k g sc, emitAll false rest with
    | some e, some es => some (e :: es)
    | _, _ => none

/-- Embeds the annotation-rendering phase of `main` on a record list: sort
by line, group by line, annotate each group. -/
def mainEmissions (annots : List AnalyzerAnn) : Option (List Emission) :=
  emitAll true (runs (pySortedByLine annots))

/-- The three linters `main` can invoke. -/
inductive Linter where
  | pep8
  | pyflakes
  | flake8
deriving DecidableEq

/-- Host-visible events of one `main` run: clearing the editor annotations,
invoking a linter, emitting one line annotation, or showing the
`No Issues Found` HUD alert. -/
inductive Event where
  | clearAnns
  | invoke (l : Linter)
  | emitAnn (e : Emission)
  | hudAlert
deriving DecidableEq

/-- Embeds Python truthiness of the `analyzer.flake8` configuration value
(`None` when unset, otherwise the list of flake8 option sets, each paired
here with its run outcome): `None` and the empty list are falsy. -/
def isTruthy : Option (List RunResult) → Bool
  | none => false
  | some l => !l.isEmpty

/-- The events emitted after the linters ran: the HUD alert when no record
was produced, otherwise one annotation event per merged line group. -/
def emitEvents (annots : List AnalyzerAnn) : List Event :=
  if annots.isEmpty then [Event.hudAlert]
  else
    match mainEmissions annots with
    | some es => es.map Event.emitAnn
    | none => []

/-- Embeds `main` as its trace of host-visible events.  The editor path and
the configuration store are external and appear as parameters, as do the
outcomes of the external linters: `cfg` is the `analyzer.flake8` value with
one `RunResult` per option set, `pep8Out` and `pyflakesOut` the records the
pep8 and pyflakes adapters would produce for the saved text.  A run returns
early with no event unless the path is set and ends in `.py`; it then clears
the annotations, invokes either flake8 (once per option set) or pep8
followed by pyflakes, and finally emits the merged annotations. -/
def mainTrace (path : Option String) (cfg : Option (List RunResult))
    (pep8Out pyflakesOut : List AnalyzerAnn) : List Event :=
  match path with
  | none => []
  | some p =>
    if ".py".data.isSuffixOf p.data then
      if isTruthy cfg then
        Event.clearAnns ::
          ((cfg.getD []).map (fun _ => Event.invoke Linter.flake8)
            ++ emitEvents (flake8Annotations (cfg.getD [])).1)
      else
        Event.clearAnns ::
          ([Event.invoke Linter.pep8, Event.invoke Linter.pyflakes]
            ++ emitEvents (pep8Out ++ pyflakesOut))
    else []

/-- The linter of an invocation event. -/
def invokeOf : Event → Option Linter
  | Event.invoke l => some l
  | _ => none

/-- The linter invocations of a trace, in order. -/
def linterCalls (tr : List Event) : List Linter :=
  tr.filterMap invokeOf

instance : IsTrans AnalyzerAnn lineLe := ⟨fun _ _ _ hab hbc => Nat.le_trans hab hbc⟩

instance : IsTotal AnalyzerAnn lineLe := ⟨fun a b => Nat.le_total a.line b.line⟩

/-- Helper: `takeWhile`/`dropWhile` on a list that starts with a block of
satisfying elements followed by a failing element. -/
theorem takeWhile_all_append {α : Type} (p : α → Bool) (l₁ : List α) (c : α) (l₂ : List α)
    (h1 : ∀ x ∈ l₁, p x = true) (h2 : p c = false) :
    (l₁ ++ c :: l₂).takeWhile p = l₁ ∧ (l₁ ++ c :: l₂).dropWhile p = c :: l₂ := by
  induction l₁ with
  | nil => simp [List.takeWhile, List.dropWhile, h2]
  | cons a t ih =>
    have ha : p a = true := h1 a (List.mem_cons_self a t)
    have ht := ih (fun x hx => h1 x (List.mem_cons_of_mem a hx))
    simp [List.takeWhile, List.dropWhile, ha, ht.1, ht.2]

/-- Helper: a list is a (Boolean) prefix of itself followed by anything. -/
theorem isPrefixOf_append_self (l₁ l₂ : List Char) : l₁.isPrefixOf (l₁ ++ l₂) = true := by
  induction l₁ with
  | nil => simp [List.isPrefixOf]
  | cons a t ih => simp [List.isPrefixOf, ih]

/-- Helper: dropping `len(path) + 1` characters strips `path` and the
following colon. -/
theorem drop_path_colon (p r : List Char) : (p ++ ':' :: r).drop (p.length + 1) = r := by
  induction p with
  | nil => rfl
  | cons a t ih => simp only [List.cons_append, List.length_cons, List.drop_succ_cons]; exact ih

/-- Helper: the line:column:message regex at a string of exactly that form. -/
theorem matchLineColMsgL_form (L C msg : List Char)
    (hL : L ≠ []) (hLd : ∀ c ∈ L, c.isDigit = true)
    (hC : C ≠ []) (hCd : ∀ c ∈ C, c.isDigit = true)
    (hmsg : '\n' ∉ msg) :
    matchLineColMsgL (L ++ ':' :: (C ++ ':' :: ' ' :: msg)) = some (L, C, msg) := by
  have h1 := takeWhile_all_append Char.isDigit L ':' (C ++ ':' :: ' ' :: msg) hLd (by decide)
  have h2 := takeWhile_all_append Char.isDigit C ':' (' ' :: msg) hCd (by decide)
  simp only [matchLineColMsgL, h1.1, h1.2, h2.1, h2.2, List.isEmpty_iff]
  simp [hL, hC, hmsg]

/-- Helper: the line:column:message regex fails on a line:message form (after
the first digit group and colon comes a space, which `\d+` cannot match). -/
theorem matchLineColMsgL_form2 (L msg : List Char)
    (hL : L ≠ []) (hLd : ∀ c ∈ L, c.isDigit = true) :
    matchLineColMsgL (L ++ ':' :: ' ' :: msg) = none := by
  have h1 := takeWhile_all_append Char.isDigit L ':' (' ' :: msg) hLd (by decide)
  simp only [matchLineColMsgL, h1.1, h1.2, List.isEmpty_iff]
  simp [hL, List.takeWhile]

/-- Helper: the line:message regex at a string of exactly that form. -/
theorem matchLineMsgL_form (L msg : List Char)
    (hL : L ≠ []) (hLd : ∀ c ∈ L, c.isDigit = true)
    (hmsg : '\n' ∉ msg) :
    matchLineMsgL (L ++ ':' :: ' ' :: msg) = some (L, msg) := by
  have h1 := takeWhile_all_append Char.isDigit L ':' (' ' :: msg) hLd (by decide)
  simp only [matchLineMsgL, h1.1, h1.2, List.isEmpty_iff]
  simp [hL, hmsg]

/-- Helper: the code-point sequence of the line:column:message report form. -/
theorem data_form1 (path L C msg : String) :
    (path ++ ":" ++ L ++ ":" ++ C ++ ": " ++ msg).data
      = path.data ++ ':' :: (L.data ++ ':' :: (C.data ++ ':' :: ' ' :: msg.data)) := by
  simp [String.data_append]

/-- Helper: the code-point sequence of the line:message report form. -/
theorem data_form2 (path L msg : String) :
    (path ++ ":" ++ L ++ ": " ++ msg).data
      = path.data ++ ':' :: (L.data ++ ':' :: ' ' :: msg.data) := by
  simp [String.data_append]

/-- Claim C3: a report line `path:L:C: msg` yields exactly one record with
source line `int(L)` and display text `Col C: msg`, and a report line
`path:L: msg` yields exactly one record with display text `msg`; the style
is the one passed to `_get_annotations`, and for `_parse_flake8_output` it is
derived from the message group. -/
theorem c3_line_forms (path L C msg : String) (style : Style)
    (hL : L.data ≠ [] ∧ ∀ c ∈ L.data, c.isDigit = true)
    (hC : C.data ≠ [] ∧ ∀ c ∈ C.data, c.isDigit = true)
    (hmsg : '\n' ∉ msg.data) :
    getAnnsLineS path style (path ++ ":" ++ L ++ ":" ++ C ++ ": " ++ msg)
      = some ⟨natOfDigits L.data, "Col " ++ C ++ ": " ++ msg, Source.pyflakes, style⟩
    ∧ getAnnsLineS path style (path ++ ":" ++ L ++ ": " ++ msg)
      = some ⟨natOfDigits L.data, msg, Source.pyflakes, style⟩
    ∧ parseFlake8LineS path (path ++ ":" ++ L ++ ":" ++ C ++ ": " ++ msg)
      = some ⟨natOfDigits L.data, "Col " ++ C ++ ": " ++ msg, Source.flake8, flakeStyle msg⟩
    ∧ parseFlake8LineS path (path ++ ":" ++ L ++ ": " ++ msg)
      = some ⟨natOfDigits L.data, msg, Source.flake8, flakeStyle msg⟩ := by
  have hm1 := matchLineColMsgL_form L.data C.data msg.data hL.1 hL.2 hC.1 hC.2 hmsg
  have hm2 := matchLineColMsgL_form2 L.data msg.data hL.1 hL.2
  have hm3 := matchLineMsgL_form L.data msg.data hL.1 hL.2 hmsg
  refine ⟨?_, ?_, ?_, ?_⟩
  · rw [getAnnsLineS, data_form1 path L C msg, getAnnsLine, if_pos (isPrefixOf_append_self _ _),
      drop_path_colon]
    simp only [hm1]
  · rw [getAnnsLineS, data_form2 path L msg, getAnnsLine, if_pos (isPrefixOf_append_self _ _),
      drop_path_colon]
    simp only [hm2, hm3]
  · rw [parseFlake8LineS, data_form1 path L C msg, parseFlake8Line,
      if_pos (isPrefixOf_append_self _ _), drop_path_colon]
    simp only [hm1]
  · rw [parseFlake8LineS, data_form2 path L msg, parseFlake8Line,
      if_pos (isPrefixOf_append_self _ _), drop_path_colon]
    simp only [hm2, hm3]

/-- Claim C4: a report line that does not start with the path, or whose
remainder after stripping `path:` matches neither the line:column:message
regex nor the line:message regex, is silently skipped: inserting it anywhere
in the report leaves the result of `_get_annotations` unchanged (which in
particular always returns a list and never fails). -/
theorem c4_junk_skipped (path : String) (style : Style) (pre post : List String) (l : String)
    (h : path.data.isPrefixOf l.data = false
      ∨ (matchLineColMsgL (l.data.drop (path.length + 1)) = none
        ∧ matchLineMsgL (l.data.drop (path.length + 1)) = none)) :
    getAnnsLines path style (pre ++ l :: post) = getAnnsLines path style (pre ++ post) := by
  have hnone : getAnnsLineS path style l = none := by
    rcases h with h | h
    · simp [getAnnsLineS, getAnnsLine, h]
    · by_cases hp : path.data.isPrefixOf l.data
      · simp [getAnnsLineS, getAnnsLine, hp, h.1, h.2]
      · simp [getAnnsLineS, getAnnsLine, hp]
  simp [getAnnsLines, List.filterMap_append, List.filterMap_cons, hnone]

/-- Claim C4 (witness): a line for another file and an unparsable line for
the right file are both skipped. -/
theorem c4_junk_skipped_witness :
    getAnnsLines "f.py" Style.warning (["f.py:1: bad"] ++ "other.py:2: x" :: [])
      = getAnnsLines "f.py" Style.warning (["f.py:1: bad"] ++ []) :=
  c4_junk_skipped "f.py" Style.warning ["f.py:1: bad"] [] "other.py:2: x"
    (Or.inl (by decide))

/-- Claim C3 (witness): the two report line forms at concrete strings. -/
theorem c3_line_forms_witness :
    getAnnsLineS "a.py" Style.error ("a.py" ++ ":" ++ "12" ++ ":" ++ "3" ++ ": " ++ "W291 x")
      = some ⟨natOfDigits "12".data, "Col " ++ "3" ++ ": " ++ "W291 x", Source.pyflakes, Style.error⟩
    ∧ getAnnsLineS "a.py" Style.error ("a.py" ++ ":" ++ "12" ++ ": " ++ "W291 x")
      = some ⟨natOfDigits "12".data, "W291 x", Source.pyflakes, Style.error⟩
    ∧ parseFlake8LineS "a.py" ("a.py" ++ ":" ++ "12" ++ ":" ++ "3" ++ ": " ++ "W291 x")
      = some ⟨natOfDigits "12".data, "Col " ++ "3" ++ ": " ++ "W291 x", Source.flake8,
          flakeStyle "W291 x"⟩
    ∧ parseFlake8LineS "a.py" ("a.py" ++ ":" ++ "12" ++ ": " ++ "W291 x")
      = some ⟨natOfDigits "12".data, "W291 x", Source.flake8, flakeStyle "W291 x"⟩ :=
  c3_line_forms "a.py" "12" "3" "W291 x" Style.error ⟨by decide, by decide⟩
    ⟨by decide, by decide⟩ (by decide)

/-- Claim C5: an exception in one flake8 invocation is caught and logged, the
remaining option sets are still processed, and `_flake8_annotations` returns
exactly the annotations collected from the runs that succeeded (so an empty
list if every run fails). -/
theorem c5_flake8_failures (runList : List RunResult) :
    (flake8Annotations runList).1
      = (runList.filterMap fun r => match r with
          | RunResult.success anns => some anns
          | RunResult.failure _ => none).flatten
    ∧ (flake8Annotations runList).2
      = runList.filterMap (fun r => match r with
          | RunResult.success _ => none
          | RunResult.failure m => some ("flake8 failed: " ++ m))
    ∧ (∀ pre m post,
        (flake8Annotations (pre ++ RunResult.failure m :: post)).1
          = (flake8Annotations (pre ++ post)).1)
    ∧ ((∀ r ∈ runList, ∀ anns, r ≠ RunResult.success anns) →
        (flake8Annotations runList).1 = []) := by
  refine ⟨?_, ?_, ?_, ?_⟩
  · induction runList with
    | nil => rfl
    | cons r rest ih => cases r <;> simp [flake8Annotations, List.filterMap_cons, ih]
  · induction runList with
    | nil => rfl
    | cons r rest ih => cases r <;> simp [flake8Annotations, List.filterMap_cons, ih]
  · intro pre m post
    induction pre with
    | nil => simp [flake8Annotations]
    | cons r rest ih => cases r <;> simp [flake8Annotations, ih]
  · intro hall
    induction runList with
    | nil => rfl
    | cons r rest ih =>
      cases r with
      | success anns => exact absurd rfl (hall _ (List.mem_cons_self _ _) anns)
      | failure m =>
        simp [flake8Annotations]
        exact ih fun r hr => hall r (List.mem_cons_of_mem _ hr)

/-- Claim C9: every record produced by `_pep8_annotations` has warning
severity, whatever the diagnostic's code or message; the pep8 adapter never
creates an error-severity record. -/
theorem c9_pep8_always_warning (calls : List (Nat × Nat × String × Option String))
    (a : AnalyzerAnn) (h : a ∈ pep8Annotations calls) :
    a.style = Style.warning ∧ a.style ≠ Style.error := by
  obtain ⟨c, _, hc⟩ := List.mem_filterMap.mp h
  unfold pep8ReportError at hc
  cases hcode : c.2.2.2 with
  | none => rw [hcode] at hc; exact absurd hc (by simp)
  | some code =>
    rw [hcode] at hc
    obtain rfl := Option.some_injective _ hc
    exact ⟨rfl, by simp⟩

/-- Claim C9 (witness): a concrete accepted pep8 diagnostic has warning
style. -/
theorem c9_pep8_always_warning_witness :
    (⟨5, "E501 line too long", Source.pep8, Style.warning⟩ : AnalyzerAnn).style = Style.warning
    ∧ (⟨5, "E501 line too long", Source.pep8, Style.warning⟩ : AnalyzerAnn).style ≠ Style.error :=
  c9_pep8_always_warning [(2, 3, "E501 line too long", some "E501")]
    ⟨5, "E501 line too long", Source.pep8, Style.warning⟩ (by decide)

/-- Claim C10: every record created by any of the three parsers carries the
fields of the common model (`AnalyzerAnn`: source line, display text,
originating linter, severity): its originating linter is the parser's own
one of pep8 / pyflakes / flake8, and its severity is warning or error. -/
theorem c10_record_fields (calls : List (Nat × Nat × String × Option String))
    (path : String) (style : Style) (lines flines : List String) :
    (∀ a ∈ pep8Annotations calls,
      a.source = Source.pep8 ∧ (a.style = Style.warning ∨ a.style = Style.error))
    ∧ (∀ a ∈ getAnnsLines path style lines,
      a.source = Source.pyflakes ∧ (a.style = Style.warning ∨ a.style = Style.error))
    ∧ (∀ a ∈ parseFlake8Lines path flines,
      a.source = Source.flake8 ∧ (a.style = Style.warning ∨ a.style = Style.error)) := by
  have hstyle : ∀ s : Style, s = Style.warning ∨ s = Style.error := by
    intro s; cases s; exact Or.inl rfl; exact Or.inr rfl
  refine ⟨?_, ?_, ?_⟩
  · intro a ha
    obtain ⟨c, _, hc⟩ := List.mem_filterMap.mp ha
    unfold pep8ReportError at hc
    cases hcode : c.2.2.2 with
    | none => rw [hcode] at hc; exact absurd hc (by simp)
    | some code =>
      rw [hcode] at hc
      obtain rfl := Option.some_injective _ hc
      exact ⟨rfl, hstyle _⟩
  · intro a ha
    obtain ⟨l, _, hc⟩ := List.mem_filterMap.mp ha
    unfold getAnnsLineS getAnnsLine at hc
    dsimp only [] at hc
    split at hc
    · split at hc
      · obtain rfl := Option.some_injective _ hc
        exact ⟨rfl, hstyle _⟩
      · split at hc
        · obtain rfl := Option.some_injective _ hc
          exact ⟨rfl, hstyle _⟩
        · exact absurd hc (by simp)
    · exact absurd hc (by simp)
  · intro a ha
    obtain ⟨l, _, hc⟩ := List.mem_filterMap.mp ha
    unfold parseFlake8LineS parseFlake8Line at hc
    dsimp only [] at hc
    split at hc
    · split at hc
      · obtain rfl := Option.some_injective _ hc
        exact ⟨rfl, hstyle _⟩
      · split at hc
        · obtain rfl := Option.some_injective _ hc
          exact ⟨rfl, hstyle _⟩
        · exact absurd hc (by simp)
    · exact absurd hc (by simp)

/-- Helper: the post-linting events are HUD or annotation events, never an
invocation. -/
theorem emitEvents_no_invoke (annots : List AnalyzerAnn) :
    ∀ e ∈ emitEvents annots, invokeOf e = none := by
  intro e he
  unfold emitEvents at he
  split at he
  · simp at he
    subst he
    rfl
  · split at he
    · obtain ⟨em, _, rfl⟩ := List.mem_map.mp he
      rfl
    · exact absurd he (by simp)

/-- Claim C6: when the `analyzer.flake8` configuration value is truthy only
flake8 is invoked (once per option set), otherwise exactly pep8 then
pyflakes are invoked; flake8 is never combined with either of the other
two. -/
theorem c6_linter_selection (p : String) (cfg : Option (List RunResult))
    (pep8Out pyflakesOut : List AnalyzerAnn)
    (hp : ".py".data.isSuffixOf p.data = true) :
    linterCalls (mainTrace (some p) cfg pep8Out pyflakesOut)
      = (if isTruthy cfg then (cfg.getD []).map (fun _ => Linter.flake8)
        else [Linter.pep8, Linter.pyflakes])
    ∧ ¬ (Linter.flake8 ∈ linterCalls (mainTrace (some p) cfg pep8Out pyflakesOut)
        ∧ Linter.pep8 ∈ linterCalls (mainTrace (some p) cfg pep8Out pyflakesOut))
    ∧ ¬ (Linter.flake8 ∈ linterCalls (mainTrace (some p) cfg pep8Out pyflakesOut)
        ∧ Linter.pyflakes ∈ linterCalls (mainTrace (some p) cfg pep8Out pyflakesOut)) := by
  have hcalls : linterCalls (mainTrace (some p) cfg pep8Out pyflakesOut)
      = (if isTruthy cfg then (cfg.getD []).map (fun _ => Linter.flake8)
        else [Linter.pep8, Linter.pyflakes]) := by
    have hemit1 := emitEvents_no_invoke (flake8Annotations (cfg.getD [])).1
    have hemit2 := emitEvents_no_invoke (pep8Out ++ pyflakesOut)
    simp only [mainTrace]
    rw [if_pos hp]
    by_cases ht : isTruthy cfg = true
    · rw [if_pos ht, if_pos ht]
      simp only [linterCalls, List.filterMap_cons, List.filterMap_append, List.filterMap_map]
      rw [List.filterMap_eq_nil_iff.mpr hemit1]
      simp only [invokeOf, Function.comp_def, List.filterMap_map, List.append_nil]
      generalize (cfg.getD []) = l
      induction l with
      | nil => rfl
      | cons x t ih => simp [List.filterMap_cons, ih]
    · rw [if_neg ht, if_neg ht]
      simp only [linterCalls, List.filterMap_cons, List.filterMap_append]
      rw [List.filterMap_eq_nil_iff.mpr hemit2]
      simp [invokeOf]
  refine ⟨hcalls, fun hboth => ?_, fun hboth => ?_⟩
  · rw [hcalls] at hboth
    by_cases ht : isTruthy cfg = true
    · rw [if_pos ht] at hboth
      obtain ⟨_, _, h⟩ := List.mem_map.mp hboth.2
      exact absurd h (by decide)
    · rw [if_neg ht] at hboth
      exact absurd hboth.1 (by decide)
  · rw [hcalls] at hboth
    by_cases ht : isTruthy cfg = true
    · rw [if_pos ht] at hboth
      obtain ⟨_, _, h⟩ := List.mem_map.mp hboth.2
      exact absurd h (by decide)
    · rw [if_neg ht] at hboth
      exact absurd hboth.1 (by decide)

/-- Claim C6 (witness): a concrete truthy configuration invokes flake8 only,
and the no-combination facts hold there. -/
theorem c6_linter_selection_witness :
    linterCalls (mainTrace (some "t.py") (some [RunResult.failure "boom"]) [] [])
      = (if isTruthy (some [RunResult.failure "boom"])
        then ([RunResult.failure "boom"].map (fun _ => Linter.flake8))
        else [Linter.pep8, Linter.pyflakes])
    ∧ ¬ (Linter.flake8 ∈ linterCalls (mainTrace (some "t.py") (some [RunResult.failure "boom"]) [] [])
        ∧ Linter.pep8 ∈ linterCalls (mainTrace (some "t.py") (some [RunResult.failure "boom"]) [] []))
    ∧ ¬ (Linter.flake8 ∈ linterCalls (mainTrace (some "t.py") (some [RunResult.failure "boom"]) [] [])
        ∧ Linter.pyflakes ∈ linterCalls (mainTrace (some "t.py") (some [RunResult.failure "boom"]) [] [])) :=
  c6_linter_selection "t.py" (some [RunResult.failure "boom"]) [] [] (by decide)

/-- Helper: positional ordering in a trace of the form
`clear :: invocations ++ tail` where the tail has no invocation event. -/
theorem trace_order (invs tailEvs : List Event)
    (hinvs : ∀ e ∈ invs, ∃ l, e = Event.invoke l)
    (htail : ∀ e ∈ tailEvs, invokeOf e = none) :
    (∀ (i : Nat) (e : Emission), (Event.clearAnns :: (invs ++ tailEvs))[i]? = some (Event.emitAnn e) →
      ∃ j, j < i ∧ (Event.clearAnns :: (invs ++ tailEvs))[j]? = some Event.clearAnns)
    ∧ (∀ (i : Nat) (l : Linter), (Event.clearAnns :: (invs ++ tailEvs))[i]? = some (Event.invoke l) →
      ∃ j, j < i ∧ (Event.clearAnns :: (invs ++ tailEvs))[j]? = some Event.clearAnns)
    ∧ (∀ (i : Nat) (l : Linter) (j : Nat) (e : Emission),
      (Event.clearAnns :: (invs ++ tailEvs))[i]? = some (Event.invoke l) →
      (Event.clearAnns :: (invs ++ tailEvs))[j]? = some (Event.emitAnn e) → i < j) := by
  refine ⟨?_, ?_, ?_⟩
  · intro i e hi
    match i with
    | 0 => exact absurd hi (by simp)
    | n + 1 => exact ⟨0, Nat.succ_pos n, by simp⟩
  · intro i l hi
    match i with
    | 0 => exact absurd hi (by simp)
    | n + 1 => exact ⟨0, Nat.succ_pos n, by simp⟩
  · intro i l j e hi hj
    match i, j with
    | 0, _ => exact absurd hi (by simp)
    | _ + 1, 0 => exact absurd hj (by simp)
    | a + 1, b + 1 =>
      simp only [List.getElem?_cons_succ] at hi hj
      have ha : a < invs.length := by
        by_contra hge
        rw [List.getElem?_append_right (Nat.le_of_not_lt hge)] at hi
        have := htail _ (List.getElem?_mem hi)
        simp [invokeOf] at this
      have hb : invs.length ≤ b := by
        by_contra hlt
        rw [List.getElem?_append_left (Nat.lt_of_not_le hlt)] at hj
        obtain ⟨l', hl'⟩ := hinvs _ (List.getElem?_mem hj)
        exact absurd hl' (by simp)
      exact Nat.succ_lt_succ (Nat.lt_of_lt_of_le ha hb)

/-- Claim C8: in every run of `main`, annotations are cleared first, linter
invocations come after the clearing, and every emitted annotation comes
after the clearing and after every linter invocation; no annotation is ever
emitted before the clearing step. -/
theorem c8_event_order (path : Option String) (cfg : Option (List RunResult))
    (pep8Out pyflakesOut : List AnalyzerAnn) :
    (∀ (i : Nat) (e : Emission), (mainTrace path cfg pep8Out pyflakesOut)[i]? = some (Event.emitAnn e) →
      ∃ j, j < i ∧ (mainTrace path cfg pep8Out pyflakesOut)[j]? = some Event.clearAnns)
    ∧ (∀ (i : Nat) (l : Linter), (mainTrace path cfg pep8Out pyflakesOut)[i]? = some (Event.invoke l) →
      ∃ j, j < i ∧ (mainTrace path cfg pep8Out pyflakesOut)[j]? = some Event.clearAnns)
    ∧ (∀ (i : Nat) (l : Linter) (j : Nat) (e : Emission),
      (mainTrace path cfg pep8Out pyflakesOut)[i]? = some (Event.invoke l) →
      (mainTrace path cfg pep8Out pyflakesOut)[j]? = some (Event.emitAnn e) → i < j) := by
  have hempty : ∀ tr : List Event, tr = [] →
      ((∀ (i : Nat) (e : Emission), tr[i]? = some (Event.emitAnn e) →
        ∃ j, j < i ∧ tr[j]? = some Event.clearAnns)
      ∧ (∀ (i : Nat) (l : Linter), tr[i]? = some (Event.invoke l) →
        ∃ j, j < i ∧ tr[j]? = some Event.clearAnns)
      ∧ (∀ (i : Nat) (l : Linter) (j : Nat) (e : Emission), tr[i]? = some (Event.invoke l) →
        tr[j]? = some (Event.emitAnn e) → i < j)) := by
    rintro _ rfl
    refine ⟨fun i e hi => ?_, fun i l hi => ?_, fun i l j e hi _ => ?_⟩ <;>
      exact absurd hi (by simp)
  match path with
  | none => exact hempty _ rfl
  | some p =>
    simp only [mainTrace]
    by_cases hpy : ".py".data.isSuffixOf p.data = true
    · rw [if_pos hpy]
      by_cases ht : isTruthy cfg = true
      · rw [if_pos ht]
        exact trace_order _ _ (fun e he => by
            obtain ⟨_, _, rfl⟩ := List.mem_map.mp he; exact ⟨Linter.flake8, rfl⟩)
          (emitEvents_no_invoke _)
      · rw [if_neg ht]
        exact trace_order _ _ (fun e he => by
            simp only [List.mem_cons, List.not_mem_nil, or_false] at he
            rcases he with rfl | rfl
            · exact ⟨Linter.pep8, rfl⟩
            · exact ⟨Linter.pyflakes, rfl⟩)
          (emitEvents_no_invoke _)
    · rw [if_neg hpy]
      exact hempty _ rfl

/-- Helper: `runs` on an element whose tail groups to nothing. -/
theorem runs_cons_of_nil (a : AnalyzerAnn) {rest : List AnalyzerAnn}
    (h : runs rest = []) : runs (a :: rest) = [(a.line, [a])] := by
  rw [runs, h]

/-- Helper: `runs` on an element in front of an already-grouped tail: the
element joins the first group exactly when its line number equals the first
key. -/
theorem runs_cons_of_cons (a : AnalyzerAnn) {rest : List AnalyzerAnn} {k0 : Nat}
    {g0 : List AnalyzerAnn} {t : List (Nat × List AnalyzerAnn)}
    (h : runs rest = (k0, g0) :: t) :
    runs (a :: rest)
      = if a.line = k0 then (k0, a :: g0) :: t else (a.line, [a]) :: (k0, g0) :: t := by
  rw [runs, h]

/-- Helper: stability of `orderedInsert` for the by-line key — filtering on
one line number commutes with the insertion. -/
theorem filter_orderedInsert (x : AnalyzerAnn) (s : List AnalyzerAnn) (k : Nat) :
    (List.orderedInsert lineLe x s).filter (fun a => a.line == k)
      = if x.line = k then x :: s.filter (fun a => a.line == k)
        else s.filter (fun a => a.line == k) := by
  induction s with
  | nil =>
    by_cases hx : x.line = k <;>
      simp [List.orderedInsert, List.filter_cons, hx]
  | cons y ys ih =>
    simp only [List.orderedInsert]
    by_cases hxy : lineLe x y
    · rw [if_pos hxy]
      by_cases hx : x.line = k <;> by_cases hy : y.line = k <;>
        simp [List.filter_cons, hx, hy]
    · rw [if_neg hxy]
      have hylt : y.line < x.line := Nat.lt_of_not_le hxy
      by_cases hx : x.line = k
      · have hy : y.line ≠ k := by omega
        simp [List.filter_cons, hy, ih, hx]
      · by_cases hy : y.line = k <;>
          simp [List.filter_cons, hy, ih, hx]

/-- Helper: the by-line sort of `main` is stable — filtering on one line
number gives the same sublist, in the same order, before and after
sorting. -/
theorem filter_pySortedByLine (annots : List AnalyzerAnn) (k : Nat) :
    (pySortedByLine annots).filter (fun a => a.line == k)
      = annots.filter (fun a => a.line == k) := by
  induction annots with
  | nil => rfl
  | cons a rest ih =>
    simp only [pySortedByLine, List.insertionSort] at ih ⊢
    rw [filter_orderedInsert]
    by_cases ha : a.line = k <;> simp [List.filter_cons, ha, ih]

/-- Helper: every record in a group of `runs` has the group's key as its
line number. -/
theorem runs_group_key : ∀ (s : List AnalyzerAnn) (k : Nat) (g : List AnalyzerAnn),
    (k, g) ∈ runs s → ∀ x ∈ g, x.line = k := by
  intro s
  induction s with
  | nil => intro k g hmem; exact absurd hmem (by simp [runs])
  | cons a rest ih =>
    intro k g hmem x hx
    cases hr : runs rest with
    | nil =>
      rw [runs_cons_of_nil a hr] at hmem
      simp only [List.mem_singleton, Prod.mk.injEq] at hmem
      obtain ⟨rfl, rfl⟩ := hmem
      simp only [List.mem_singleton] at hx
      subst hx; rfl
    | cons p t =>
      obtain ⟨k0, g0⟩ := p
      rw [runs_cons_of_cons a hr] at hmem
      by_cases hak : a.line = k0
      · rw [if_pos hak] at hmem
        rcases List.mem_cons.mp hmem with heq | htail
        · injection heq with h1 h2
          subst h1; subst h2
          rcases List.mem_cons.mp hx with rfl | hx0
          · exact hak
          · exact ih k g0 (hr ▸ List.mem_cons_self _ _) x hx0
        · exact ih k g (hr ▸ List.mem_cons_of_mem _ htail) x hx
      · rw [if_neg hak] at hmem
        rcases List.mem_cons.mp hmem with heq | htail
        · injection heq with h1 h2
          subst h1; subst h2
          simp only [List.mem_singleton] at hx
          subst hx; rfl
        · exact ih k g (hr ▸ htail) x hx

/-- Helper: the groups of `runs` concatenate back to the original list. -/
theorem runs_flatten : ∀ s : List AnalyzerAnn, ((runs s).map Prod.snd).flatten = s := by
  intro s
  induction s with
  | nil => rfl
  | cons a rest ih =>
    cases hr : runs rest with
    | nil =>
      have hrest : rest = [] := by rw [hr] at ih; simpa using ih.symm
      subst hrest
      rw [runs_cons_of_nil a hr]
      rfl
    | cons p t =>
      obtain ⟨k0, g0⟩ := p
      rw [hr] at ih
      rw [runs_cons_of_cons a hr]
      by_cases hak : a.line = k0
      · rw [if_pos hak]
        simpa using ih
      · rw [if_neg hak]
        simpa using ih

/-- Helper: `runs` never produces an empty group. -/
theorem runs_group_ne_nil : ∀ (s : List AnalyzerAnn) (k : Nat) (g : List AnalyzerAnn),
    (k, g) ∈ runs s → g ≠ [] := by
  intro s
  induction s with
  | nil => intro k g hmem; exact absurd hmem (by simp [runs])
  | cons a rest ih =>
    intro k g hmem
    cases hr : runs rest with
    | nil =>
      rw [runs_cons_of_nil a hr] at hmem
      simp only [List.mem_singleton, Prod.mk.injEq] at hmem
      obtain ⟨rfl, rfl⟩ := hmem
      simp
    | cons p t =>
      obtain ⟨k0, g0⟩ := p
      rw [runs_cons_of_cons a hr] at hmem
      by_cases hak : a.line = k0
      · rw [if_pos hak] at hmem
        rcases List.mem_cons.mp hmem with heq | htail
        · injection heq with h1 h2
          subst h2
          simp
        · exact ih k g (hr ▸ List.mem_cons_of_mem _ htail)
      · rw [if_neg hak] at hmem
        rcases List.mem_cons.mp hmem with heq | htail
        · injection heq with h1 h2
          subst h2
          simp
        · exact ih k g (hr ▸ htail)

/-- Helper: `runs` of a non-empty list starts with the first element's
line number as key. -/
theorem runs_head_key (a : AnalyzerAnn) (rest : List AnalyzerAnn) :
    ∃ g t, runs (a :: rest) = (a.line, g) :: t := by
  cases hr : runs rest with
  | nil => exact ⟨[a], [], runs_cons_of_nil a hr⟩
  | cons p t =>
    obtain ⟨k, g⟩ := p
    by_cases hak : a.line = k
    · refine ⟨a :: g, t, ?_⟩
      rw [runs_cons_of_cons a hr, if_pos hak, hak]
    · refine ⟨[a], (k, g) :: t, ?_⟩
      rw [runs_cons_of_cons a hr, if_neg hak]

/-- Helper: on a list sorted by line number the group keys of `runs` are
strictly increasing. -/
theorem runs_keys_chain : ∀ s : List AnalyzerAnn, List.Pairwise lineLe s →
    ((runs s).map Prod.fst).Chain' (· < ·) := by
  intro s
  induction s with
  | nil => intro _; simp [runs]
  | cons a rest ih =>
    intro hp
    obtain ⟨ha, hp'⟩ := List.pairwise_cons.mp hp
    cases hr : runs rest with
    | nil => rw [runs_cons_of_nil a hr]; simp
    | cons p t =>
      obtain ⟨k0, g0⟩ := p
      have hrest : rest ≠ [] := by
        intro h; subst h; simp [runs] at hr
      obtain ⟨b, rest2, rfl⟩ := List.exists_cons_of_ne_nil hrest
      obtain ⟨g2, t2, heq⟩ := runs_head_key b rest2
      rw [hr] at heq
      injection heq with h1 h2
      injection h1 with hk0 hg0
      have hchain := ih hp'
      rw [hr] at hchain
      rw [runs_cons_of_cons a hr]
      by_cases hak : a.line = k0
      · rw [if_pos hak]
        simpa using hchain
      · rw [if_neg hak]
        have hab : a.line ≤ b.line := ha b (List.mem_cons_self _ _)
        have halt : a.line < k0 := by omega
        simp only [List.map_cons]
        exact List.chain'_cons.mpr ⟨halt, by simpa using hchain⟩

/-- Helper: on a list sorted by line number each group of `runs` is exactly
the sublist of records with the group's line number, in order. -/
theorem runs_group_filter : ∀ s : List AnalyzerAnn, List.Pairwise lineLe s →
    ∀ (k : Nat) (g : List AnalyzerAnn), (k, g) ∈ runs s →
    g = s.filter (fun x => x.line == k) := by
  intro s
  induction s with
  | nil => intro _ k g hmem; exact absurd hmem (by simp [runs])
  | cons a rest ih =>
    intro hp k g hmem
    obtain ⟨ha, hp'⟩ := List.pairwise_cons.mp hp
    cases hr : runs rest with
    | nil =>
      have hrest : rest = [] := by
        rw [← runs_flatten rest, hr]; rfl
      subst hrest
      rw [runs_cons_of_nil a hr] at hmem
      simp only [List.mem_singleton, Prod.mk.injEq] at hmem
      obtain ⟨rfl, rfl⟩ := hmem
      simp [List.filter]
    | cons p t =>
      obtain ⟨k0, g0⟩ := p
      have hrest : rest ≠ [] := by
        intro h; subst h; simp [runs] at hr
      obtain ⟨b, rest2, rfl⟩ := List.exists_cons_of_ne_nil hrest
      obtain ⟨g2, t2, heq⟩ := runs_head_key b rest2
      rw [hr] at heq
      injection heq with h1 h2
      injection h1 with hk0 hg0
      have hchain := runs_keys_chain _ hp'
      rw [hr] at hchain
      rw [runs_cons_of_cons a hr] at hmem
      by_cases hak : a.line = k0
      · rw [if_pos hak] at hmem
        rcases List.mem_cons.mp hmem with hhead | htail
        · injection hhead with h3 h4
          subst h3; subst h4
          have hg0 := ih hp' k g0 (hr ▸ List.mem_cons_self _ _)
          rw [List.filter_cons, if_pos (by simpa using hak), ← hg0]
        · have hg := ih hp' k g (hr ▸ List.mem_cons_of_mem _ htail)
          have hkmem : k ∈ t.map Prod.fst := List.mem_map.mpr ⟨(k, g), htail, rfl⟩
          have hk0k : k0 < k := by
            have hpw := List.chain'_iff_pairwise.mp hchain
            exact (List.pairwise_cons.mp hpw).1 k (by simpa using hkmem)
          have hane : (a.line == k) = false := by
            simp only [beq_eq_false_iff_ne]
            omega
          rw [List.filter_cons, hane, ← hg]
          simp
      · rw [if_neg hak] at hmem
        rcases List.mem_cons.mp hmem with hhead | htail
        · injection hhead with h3 h4
          subst h3; subst h4
          have hnone : ∀ x ∈ b :: rest2, ¬ (x.line == a.line) = true := by
            intro x hx
            have hax : a.line ≤ x.line := ha x hx
            have hbx : b.line ≤ x.line := by
              rcases List.mem_cons.mp hx with rfl | hx2
              · exact Nat.le_refl _
              · exact (List.pairwise_cons.mp hp').1 x hx2
            have hab : a.line ≤ b.line := ha b (List.mem_cons_self _ _)
            simp only [beq_iff_eq]
            omega
          rw [List.filter_cons, if_pos (by simp)]
          rw [List.filter_eq_nil_iff.mpr hnone]
        · have hg := ih hp' k g (hr ▸ htail)
          have hkmem : k ∈ ((k0, g0) :: t).map Prod.fst :=
            List.mem_map.mpr ⟨(k, g), htail, rfl⟩
          have hkmem2 : k = k0 ∨ k ∈ List.map Prod.fst t := by
            rw [List.map_cons] at hkmem
            exact List.mem_cons.mp hkmem
          have hkge : k0 ≤ k := by
            have hpw := List.chain'_iff_pairwise.mp hchain
            rcases hkmem2 with rfl | hkm
            · exact Nat.le_refl _
            · exact Nat.le_of_lt ((List.pairwise_cons.mp hpw).1 k (by simpa using hkm))
          have hab : a.line ≤ b.line := ha b (List.mem_cons_self _ _)
          have hane : (a.line == k) = false := by
            simp only [beq_eq_false_iff_ne]
            omega
          rw [List.filter_cons, hane, ← hg]
          simp

/-- Helper: the line numbers occurring as `runs` keys are exactly the line
numbers occurring in the list. -/
theorem runs_keys_mem (s : List AnalyzerAnn) (k : Nat) :
    k ∈ (runs s).map Prod.fst ↔ ∃ x ∈ s, x.line = k := by
  constructor
  · intro hk
    obtain ⟨⟨k2, g⟩, hmem, hk2⟩ := List.mem_map.mp hk
    dsimp only at hk2
    subst hk2
    have hne := runs_group_ne_nil s k2 g hmem
    obtain ⟨x, g2, rfl⟩ := List.exists_cons_of_ne_nil hne
    refine ⟨x, ?_, runs_group_key s k2 _ hmem x (List.mem_cons_self _ _)⟩
    rw [← runs_flatten s]
    exact List.mem_flatten.mpr ⟨x :: g2, List.mem_map.mpr ⟨(k2, x :: g2), hmem, rfl⟩,
      List.mem_cons_self _ _⟩
  · rintro ⟨x, hx, rfl⟩
    rw [← runs_flatten s] at hx
    obtain ⟨g, hg, hxg⟩ := List.mem_flatten.mp hx
    obtain ⟨⟨k2, g2⟩, hmem, rfl⟩ := List.mem_map.mp hg
    have := runs_group_key s k2 g2 hmem x hxg
    exact List.mem_map.mpr ⟨(k2, g2), hmem, this.symm⟩

/-- Helper: the reverse-sorted list of a non-empty group is non-empty. -/
theorem pySortedDesc_ne_nil (g : List AnalyzerAnn) (hg : g ≠ []) :
    pySortedDesc g ≠ [] := by
  intro h
  have hlen : (pySortedDesc g).length = g.length := by
    simp [pySortedDesc, (List.perm_insertionSort pyLe g.reverse).length_eq]
  rw [h] at hlen
  exact hg (List.eq_nil_of_length_eq_zero hlen.symm)

/-- Helper: the emission loop succeeds on non-empty groups and emits one
annotation per group, in order, each produced by `_annotate` on its
group. -/
theorem emitAll_spec : ∀ (sc : Bool) (gs : List (Nat × List AnalyzerAnn)),
    (∀ p ∈ gs, p.2 ≠ []) →
    ∃ es, emitAll sc gs = some es
      ∧ es.map Emission.line = gs.map Prod.fst
      ∧ ∀ e ∈ es, ∃ p sc2, p ∈ gs ∧ annotateE p.1 p.2 sc2 = some e := by
  intro sc gs
  induction gs generalizing sc with
  | nil => exact fun _ => ⟨[], rfl, rfl, by simp⟩
  | cons p rest ih =>
    intro hne
    obtain ⟨k, g⟩ := p
    have hg : g ≠ [] := hne (k, g) (List.mem_cons_self _ _)
    have hsort := pySortedDesc_ne_nil g hg
    obtain ⟨a, r, har⟩ := List.exists_cons_of_ne_nil hsort
    have hann : annotateE k g sc
        = some ⟨k, String.intercalate ",\n" ((a :: r).map AnalyzerAnn.text),
            a.style.value, sc⟩ := by
      rw [annotateE, har]
    obtain ⟨es, hes, hmap, hmem⟩ := ih false (fun q hq => hne q (List.mem_cons_of_mem _ hq))
    refine ⟨(⟨k, String.intercalate ",\n" ((a :: r).map AnalyzerAnn.text),
      a.style.value, sc⟩ : Emission) :: es, ?_, ?_, ?_⟩
    · rw [emitAll, hann, hes]
    · simp [hmap]
    · intro e he
      rcases List.mem_cons.mp he with rfl | he2
      · exact ⟨(k, g), sc, List.mem_cons_self _ _, hann⟩
      · obtain ⟨q, sc2, hq, hqe⟩ := hmem e he2
        exact ⟨q, sc2, List.mem_cons_of_mem _ hq, hqe⟩

/-- Claim C2: for every record list, the rendering phase of `main` emits
exactly one annotation per distinct source line; the annotation of a line
joins with `,\n` the texts of all records of that line in the
reverse-sorted (descending priority) order, and carries the style of the
first record of that order. -/
theorem c2_merge_per_line (annots : List AnalyzerAnn) :
    ∃ ems, mainEmissions annots = some ems
      ∧ (ems.map Emission.line).Nodup
      ∧ (∀ l, l ∈ ems.map Emission.line ↔ ∃ a ∈ annots, a.line = l)
      ∧ ∀ e ∈ ems, ∃ a rest,
          pySortedDesc (annots.filter (fun x => x.line == e.line)) = a :: rest
          ∧ e.text = String.intercalate ",\n" ((a :: rest).map AnalyzerAnn.text)
          ∧ e.style = a.style.value := by
  have hp : List.Pairwise lineLe (pySortedByLine annots) :=
    List.sorted_insertionSort lineLe annots
  have hgroups : ∀ p ∈ runs (pySortedByLine annots), p.2 ≠ [] := by
    intro ⟨k, g⟩ hmem
    exact runs_group_ne_nil _ k g hmem
  obtain ⟨es, hes, hmap, hmem⟩ := emitAll_spec true (runs (pySortedByLine annots)) hgroups
  refine ⟨es, hes, ?_, ?_, ?_⟩
  · rw [hmap]
    have hchain := runs_keys_chain _ hp
    have hpw := List.chain'_iff_pairwise.mp hchain
    exact hpw.imp Nat.ne_of_lt
  · intro l
    rw [hmap, runs_keys_mem]
    constructor
    · rintro ⟨x, hx, rfl⟩
      exact ⟨x, (List.perm_insertionSort lineLe annots).mem_iff.mp hx, rfl⟩
    · rintro ⟨x, hx, rfl⟩
      exact ⟨x, (List.perm_insertionSort lineLe annots).mem_iff.mpr hx, rfl⟩
  · intro e he
    obtain ⟨⟨k, g⟩, sc2, hpmem, hann⟩ := hmem e he
    have hg : g = (pySortedByLine annots).filter (fun x => x.line == k) :=
      runs_group_filter _ hp k g hpmem
    rw [filter_pySortedByLine] at hg
    rw [annotateE] at hann
    cases har : pySortedDesc g with
    | nil => rw [har] at hann; exact absurd hann (by simp)
    | cons a r =>
      rw [har] at hann
      obtain rfl := Option.some_injective _ hann
      exact ⟨a, r, by rw [← hg]; exact har, rfl, rfl⟩

/-- Claim C1 (counterexample): the claim says a flake8 record ranks above a
pep8 or pyflakes record and a pep8 record ranks above a pyflakes record.  In
the code it is the other way around: a flake8 warning record compares
strictly less-than a pep8 warning record, and a pep8 warning record compares
strictly less-than a pyflakes warning record. -/
theorem c1_counterexample :
    ltAnn ⟨1, "a", Source.flake8, Style.warning⟩ ⟨1, "b", Source.pep8, Style.warning⟩ = true
    ∧ ltAnn ⟨1, "b", Source.pep8, Style.warning⟩ ⟨1, "a", Source.flake8, Style.warning⟩ = false
    ∧ ltAnn ⟨1, "c", Source.pep8, Style.warning⟩ ⟨1, "d", Source.pyflakes, Style.warning⟩ = true
    ∧ ltAnn ⟨1, "d", Source.pyflakes, Style.warning⟩ ⟨1, "c", Source.pep8, Style.warning⟩ = false := by
  decide

/-- Claim C1 (amended): `_AnalyzerAnnotation.__lt__` orders records by
originating linter priority pyflakes > pep8 > flake8 — a flake8 record
compares less-than any non-flake8 record and a pep8 record compares
less-than a pyflakes record — and by severity with warning below error. -/
theorem c1_amended (a b : AnalyzerAnn) :
    (a.source = Source.flake8 → b.source ≠ Source.flake8 → ltAnn a b = true)
    ∧ (a.source = Source.pep8 → b.source = Source.pyflakes → ltAnn a b = true)
    ∧ (a.style = Style.warning → b.style = Style.error → ltAnn a b = true) := by
  refine ⟨fun h1 h2 => ?_, fun h1 h2 => ?_, fun h1 h2 => ?_⟩ <;>
    simp only [ltAnn, h1, h2] <;> split <;> simp_all

/-- Claim C1 (amended, witness): the amended ordering at concrete records. -/
theorem c1_amended_witness :
    ltAnn ⟨3, "p", Source.flake8, Style.warning⟩ ⟨3, "q", Source.pyflakes, Style.warning⟩ = true :=
  (c1_amended ⟨3, "p", Source.flake8, Style.warning⟩ ⟨3, "q", Source.pyflakes, Style.warning⟩).1
    rfl (by decide)

/-- Claim C7: there are records a and b (a pep8 record with warning style and
a flake8 record with error style) with both a < b and b < a under
`_AnalyzerAnnotation.__lt__`, so the comparison is not asymmetric and not a
strict partial order. -/
theorem c7_not_asymmetric :
    (ltAnn ⟨2, "w", Source.pep8, Style.warning⟩ ⟨2, "e", Source.flake8, Style.error⟩ = true
    ∧ ltAnn ⟨2, "e", Source.flake8, Style.error⟩ ⟨2, "w", Source.pep8, Style.warning⟩ = true)
    ∧ ¬ (∀ a b : AnalyzerAnn, ltAnn a b = true → ltAnn b a = false) := by
  refine ⟨by decide, fun h => ?_⟩
  have h1 : ltAnn ⟨2, "w", Source.pep8, Style.warning⟩ ⟨2, "e", Source.flake8, Style.error⟩ = true := by
    decide
  have h2 := h _ _ h1
  rw [show ltAnn ⟨2, "e", Source.flake8, Style.error⟩ ⟨2, "w", Source.pep8, Style.warning⟩ = true
    from by decide] at h2
  exact absurd h2 (by decide)

end BlackmambaAnalyze
